import Mathlib

/-!
Shallow embedding of the WEBRTC repository's audio pipeline:

* the RNNoise `AudioWorkletProcessor` (`RnnoiseProcessor` in the worklet
  source file): frame aggregation, denoising, VAD notification;
* the speaking-state evaluation loop (`audioLevelLoop` together with its
  helpers in `src/composables/useStreamReceiver.js`).

Audio samples (JS numbers) are modelled as rationals.  The denoise
collaborator (`denoiseState.processFrame`) mutates a frame in place and
returns a VAD score, and it may throw; it is modelled as a function from a
frame to an optional pair (denoised frame, VAD score), with `none`
standing for a thrown exception.  The worklet's `process` callback is
modelled on its main path (denoise state configured, input and output
channels non-null), which is the path all the verified claims are about.
-/

namespace WebRTC

/-- Audio samples (JS numbers) are modelled as rationals. -/
abbrev Sample := ℚ

/-- The denoise collaborator `denoiseState.processFrame`: from a frame to
an optional pair of (denoised frame, VAD score); `none` models a thrown
exception. -/
abbrev Transform := List Sample → Option (List Sample × Sample)

/-- The JS test `frameCounter % vadInterval === 0` (line 98 of the worklet
source).  When `vadInterval = 0` the JS expression is `NaN === 0`, which
is `false`; otherwise it is ordinary modular arithmetic on non-negative
integers. -/
def jsModZero (n d : Nat) : Bool :=
  if d = 0 then false else decide (n % d = 0)

/-- One frame through the collaborator, including the `catch` branch of
the worklet's `process` (lines 75-83): `vad` starts at `0`; on success
`work` holds the denoised samples and `vad` the returned score; on failure
the original samples of the frame are copied back into `work`
(`this.work[i] = this.buf[i] || 0`) and `vad` keeps its initial value
`0`. -/
def applyFrame (den : Transform) (frame : List Sample) : List Sample × Sample :=
  match den frame with
  | some wv => wv
  | none => (frame, 0)

/-- The collaborator mutates the fixed-length `work` array in place, so a
successful `processFrame` call always leaves exactly as many samples as it
was given.  Theorems that depend on output frames having the frame length
take this contract as a hypothesis. -/
def DenLenOk (den : Transform) : Prop :=
  ∀ f w v, den f = some (w, v) → w.length = f.length

/-- The mutable state of `RnnoiseProcessor` that the `process` callback
reads and writes: `frameSize` and `vadInterval` from the constructor,
the residual sample buffer `this.buf`, and the VAD counter
`this.frameCounter`. -/
structure WorkletState where
  frameSize : Nat
  vadInterval : Nat
  buf : List Sample
  frameCounter : Nat
deriving DecidableEq

/-- A freshly constructed processor: empty buffer and zero frame counter
(constructor lines 36 and 40). -/
def initState (fs vadI : Nat) : WorkletState :=
  { frameSize := fs, vadInterval := vadI, buf := [], frameCounter := 0 }

/-- Result of the worklet's frame loop: final residual buffer, final frame
counter, final output index, samples written to the output channel, and
the VAD values posted to the main thread, in order. -/
structure LoopRes where
  buf : List Sample
  ctr : Nat
  outIdx : Nat
  out : List Sample
  msgs : List Sample
deriving DecidableEq

/-- The worklet's frame loop (lines 72-101):

    while (this.buf.length >= this.frameSize && outIndex < outCh0.length) {
      this.work.set(this.buf.subarray(0, this.frameSize));
      let vad = 0;
      try { vad = this.state.processFrame(this.work); }
      catch (e) { for (i) this.work[i] = this.buf[i] || 0; }
      const copyLen = Math.min(this.work.length, outCh0.length - outIndex);
      outCh0.set(this.work.subarray(0, copyLen), outIndex);
      outIndex += copyLen;
      this.buf = this.buf.subarray-like drop of frameSize samples;
      this.frameCounter++;
      if (this.frameCounter % this.vadInterval === 0)
        this.port.postMessage(vad);
    }

`fuel` bounds the number of iterations; every caller passes the length of
the buffer, which is an upper bound on the number of iterations whenever
`0 < frameSize` (each iteration removes `frameSize ≥ 1` samples). -/
def runLoop (den : Transform) (fs vadI cap : Nat) :
    Nat → List Sample → Nat → Nat → LoopRes
  | 0, buf, ctr, outIdx => ⟨buf, ctr, outIdx, [], []⟩
  | fuel + 1, buf, ctr, outIdx =>
    if fs ≤ buf.length ∧ outIdx < cap then
      let wv := applyFrame den (buf.take fs)
      let copyLen := min fs (cap - outIdx)
      let r := runLoop den fs vadI cap fuel (buf.drop fs) (ctr + 1) (outIdx + copyLen)
      ⟨r.buf, r.ctr, r.outIdx, wv.1.take copyLen ++ r.out,
        (if jsModZero (ctr + 1) vadI then [wv.2] else []) ++ r.msgs⟩
    else ⟨buf, ctr, outIdx, [], []⟩

/-- Result of one `process` call: the updated worklet state, the denoised
samples written to the output channel (in order), the final output index,
the full output channel contents (written samples followed by the zero
fill of line 104), and the posted VAD values. -/
structure ProcOut where
  state : WorkletState
  out : List Sample
  outIdx : Nat
  channel : List Sample
  msgs : List Sample

/-- The main path of the worklet's `process` callback (lines 63-106):
append the input block to the residual buffer, run the frame loop against
an output channel of capacity `cap`, and zero-fill the part of the channel
that was not written. -/
def process (den : Transform) (s : WorkletState) (input : List Sample) (cap : Nat) : ProcOut :=
  let buf1 := s.buf ++ input
  let r := runLoop den s.frameSize s.vadInterval cap buf1.length buf1 s.frameCounter 0
  { state := { s with buf := r.buf, frameCounter := r.ctr }
    out := r.out
    outIdx := r.outIdx
    channel := r.out ++ List.replicate (cap - r.outIdx) 0
    msgs := r.msgs }

/-- Accumulated result of a sequence of `process` calls. -/
structure RunRes where
  state : WorkletState
  out : List Sample
  msgs : List Sample

/-- A sequence of `process` calls, each given by an input block and an
output-channel capacity; outputs and VAD messages are concatenated in call
order. -/
def runCalls (den : Transform) : WorkletState → List (List Sample × Nat) → RunRes
  | s, [] => ⟨s, [], []⟩
  | s, (inp, cap) :: rest =>
    let p := process den s inp cap
    let r := runCalls den p.state rest
    ⟨r.state, p.out ++ r.out, p.msgs ++ r.msgs⟩

/-- A sequence of `process` calls in which every call is given enough
output capacity for everything it could write (`buffered + incoming`
samples), i.e. the output channel never limits the frame loop. -/
def runChunks (den : Transform) : WorkletState → List (List Sample) → RunRes
  | s, [] => ⟨s, [], []⟩
  | s, c :: rest =>
    let p := process den s c (s.buf.length + c.length)
    let r := runChunks den p.state rest
    ⟨r.state, p.out ++ r.out, p.msgs ++ r.msgs⟩

/-- The state built by the `RnnoiseProcessor` constructor (lines 21-41):
the options are stored as given — there is no validation — the buffer
starts empty, `work` is a zero array of `frameSize` entries, and the frame
counter starts at `0`.  The numeric options are modelled as integers so
that non-positive values can be passed. -/
structure CtorState where
  frameSize : Int
  vadInterval : Int
  buf : List Sample
  work : List Sample
  frameCounter : Nat
deriving DecidableEq

/-- The `RnnoiseProcessor` constructor body: store the options, allocate
the empty residual buffer and the `frameSize`-sized work array, zero the
counter.  No branch of the constructor checks or rejects anything.  The
model covers `frameSize ≥ 0`; a negative `frameSize` would make the JS
typed-array allocation `new Float32Array(frameSize)` throw a `RangeError`
(an allocation failure, not the spec's `ConfigurationError` validation),
and theorems about the constructor carry `0 ≤ frameSize`. -/
def construct (frameSize vadInterval : Int) : CtorState :=
  { frameSize := frameSize
    vadInterval := vadInterval
    buf := []
    work := List.replicate frameSize.toNat 0
    frameCounter := 0 }

/-- Modelled from the spec: `configure(frameSize)` "fails with
`ConfigurationError` if `frameSize ≤ 0`", and a "non-positive interval" is
likewise "fatal at configuration time, rejected before any processing
starts".  This is the configuration behaviour the specification describes;
the repository's constructor (`construct`) is compared against it. -/
def specConfigure (frameSize vadInterval : Int) : Except String CtorState :=
  if frameSize ≤ 0 ∨ vadInterval ≤ 0 then Except.error ("ConfigurationError")
  else Except.ok (construct frameSize vadInterval)

/-! ### Frame decomposition (specification vocabulary)

The worklet consumes the aggregated buffer `frameSize` samples at a time.
`framesOf fs l` is the list of complete `fs`-sample frames of `l`, in
order; `joinDen` is the concatenation of the denoised frames; `msgsOf` is
the list of VAD scores posted while consuming a list of frames starting
from a given counter value. -/

/-- Fuel-bounded splitting of a sample list into complete frames. -/
def framesOfAux (fs : Nat) : Nat → List Sample → List (List Sample)
  | 0, _ => []
  | fuel + 1, l => if fs ≤ l.length then l.take fs :: framesOfAux fs fuel (l.drop fs) else []

/-- The complete `fs`-sample frames of `l`, in order. -/
def framesOf (fs : Nat) (l : List Sample) : List (List Sample) :=
  framesOfAux fs l.length l

/-- Concatenation of the denoised versions of a list of frames. -/
def joinDen (den : Transform) (frames : List (List Sample)) : List Sample :=
  (frames.map fun fr => (applyFrame den fr).1).flatten

/-- The VAD scores posted while consuming `frames` in order, the counter
having value `ctr` before the first of them: the score of a frame is
posted exactly when the incremented counter is a multiple of `vadI`. -/
def msgsOf (den : Transform) (vadI : Nat) : Nat → List (List Sample) → List Sample
  | _, [] => []
  | ctr, fr :: rest =>
    (if jsModZero (ctr + 1) vadI then [(applyFrame den fr).2] else []) ++
      msgsOf den vadI (ctr + 1) rest

/-! ### Speaking-state evaluation (`useStreamReceiver.js`)

`audioLevelLoop` updates, for each participant, a bounded RMS history, a
moving average, and a boolean speaking state with a double threshold and,
for the local participant only, a VAD reinforcement; it notifies (updates
the DOM) only when the state changes. -/

/-- `speakingThresholdOn = 0.04` (line 558). -/
def speakingThresholdOn : ℚ := 4 / 100

/-- `speakingThresholdOff = 0.02` (line 559). -/
def speakingThresholdOff : ℚ := 2 / 100

/-- `rmsHistoryLength = 5` (line 560). -/
def rmsHistoryLength : Nat := 5

/-- `vadSpeakingThreshold = 0.6` (line 561). -/
def vadSpeakingThreshold : ℚ := 6 / 10

/-- The per-participant analyser record: RMS history and current speaking
state (the `history` and `speaking` fields of the `speakerAnalyzers`
entry). -/
structure SpeakerObj where
  history : List ℚ
  speaking : Bool
deriving DecidableEq

/-- Lines 632-633: push the tick's RMS onto the history, and drop the
oldest entry when the history exceeds `rmsHistoryLength`. -/
def pushHist (h : List ℚ) (rms : ℚ) : List ℚ :=
  let h1 := h ++ [rms]
  if rmsHistoryLength < h1.length then h1.drop 1 else h1

/-- Line 634: the moving-average RMS over the history. -/
def avgOf (h : List ℚ) : ℚ := h.sum / (h.length : ℚ)

/-- Lines 636-639, the RMS double-threshold decision:

    let next = prev;
    if (!prev && avg >= speakingThresholdOn) next = true;
    else if (prev && avg < speakingThresholdOff) next = false; -/
def rmsNext (prev : Bool) (avg : ℚ) : Bool :=
  if prev = false ∧ speakingThresholdOn ≤ avg then true
  else if prev = true ∧ avg < speakingThresholdOff then false
  else prev

/-- Lines 640-645, the VAD reinforcement, applied to the RMS decision for
the local participant only: if the decision so far is not-speaking but the
latest VAD value reaches `vadSpeakingThreshold`, the decision becomes
speaking. -/
def vadNext (isLocal : Bool) (next : Bool) (vad : ℚ) : Bool :=
  if isLocal = true ∧ next = false ∧ vadSpeakingThreshold ≤ vad then true else next

/-- Result of one evaluation tick for one participant: the updated record
and whether a state-change notification (`updateSpeakingVisual`) fired. -/
structure TickRes where
  obj : SpeakerObj
  notified : Bool
deriving DecidableEq

/-- One iteration of `audioLevelLoop` for one participant (lines 630-649):
update the history, compute the average, decide the next state via the RMS
rule and the VAD reinforcement, and, only if the state changed, store it
and notify. -/
def tick (isLocal : Bool) (obj : SpeakerObj) (rms vad : ℚ) : TickRes :=
  let hist := pushHist obj.history rms
  let next := vadNext isLocal (rmsNext obj.speaking (avgOf hist)) vad
  if next ≠ obj.speaking then
    { obj := { history := hist, speaking := next }, notified := true }
  else
    { obj := { history := hist, speaking := obj.speaking }, notified := false }

/-- A sequence of evaluation ticks for one participant, fed by a list of
(RMS, latest-VAD) pairs; returns the final record and the per-tick
notification flags. -/
def runTicks (isLocal : Bool) : SpeakerObj → List (ℚ × ℚ) → SpeakerObj × List Bool
  | obj, [] => (obj, [])
  | obj, (rms, vad) :: rest =>
    let t := tick isLocal obj rms vad
    let r := runTicks isLocal t.obj rest
    (r.1, t.notified :: r.2)

/-- The speaking states decided at each tick of a sequence, in order. -/
def traceTicks (isLocal : Bool) : SpeakerObj → List (ℚ × ℚ) → List Bool
  | _, [] => []
  | obj, (rms, vad) :: rest =>
    let t := tick isLocal obj rms vad
    t.obj.speaking :: traceTicks isLocal t.obj rest

/-- A pass-through collaborator used as a concrete witness: denoising
changes nothing and the VAD score is `0`. -/
def idDen : Transform := fun fr => some (fr, 0)

/-- The residual of `l` after all complete frames have been consumed. -/
def residualOf (fs : Nat) (l : List Sample) : List Sample :=
  l.drop (fs * (framesOf fs l).length)

/-! ### Lemmas about the frame decomposition -/

theorem framesOfAux_congr (fs : Nat) (hfs : 0 < fs) :
    ∀ (fuel fuel' : Nat) (l : List Sample), l.length ≤ fuel → l.length ≤ fuel' →
      framesOfAux fs fuel l = framesOfAux fs fuel' l := by
  intro fuel
  induction fuel with
  | zero =>
    intro fuel' l hl _
    have hnil : l = [] := List.eq_nil_of_length_eq_zero (Nat.le_zero.mp hl)
    subst hnil
    cases fuel' with
    | zero => rfl
    | succ n =>
      simp only [framesOfAux, List.length_nil]
      rw [if_neg]
      omega
  | succ fuel ih =>
    intro fuel' l hl hl'
    cases fuel' with
    | zero =>
      have hnil : l = [] := List.eq_nil_of_length_eq_zero (Nat.le_zero.mp hl')
      subst hnil
      simp only [framesOfAux, List.length_nil]
      rw [if_neg]
      omega
    | succ n =>
      simp only [framesOfAux]
      by_cases hle : fs ≤ l.length
      · rw [if_pos hle, if_pos hle]
        have hdrop : (l.drop fs).length ≤ fuel := by
          rw [List.length_drop]; omega
        have hdrop' : (l.drop fs).length ≤ n := by
          rw [List.length_drop]; omega
        rw [ih n (l.drop fs) hdrop hdrop']
      · rw [if_neg hle, if_neg hle]

theorem framesOfAux_eq (fs : Nat) (hfs : 0 < fs) (fuel : Nat) (l : List Sample)
    (hl : l.length ≤ fuel) : framesOfAux fs fuel l = framesOf fs l :=
  framesOfAux_congr fs hfs fuel l.length l hl (Nat.le_refl _)

theorem framesOf_nil (fs : Nat) : framesOf fs [] = [] := rfl

theorem framesOf_pos (fs : Nat) (hfs : 0 < fs) (l : List Sample) (hl : fs ≤ l.length) :
    framesOf fs l = l.take fs :: framesOf fs (l.drop fs) := by
  obtain ⟨n, hn⟩ : ∃ n, l.length = n + 1 := ⟨l.length - 1, by omega⟩
  rw [framesOf, hn]
  simp only [framesOfAux]
  rw [if_pos (by omega : fs ≤ l.length)]
  rw [framesOfAux_eq fs hfs n (l.drop fs) (by rw [List.length_drop]; omega)]

theorem framesOf_neg (fs : Nat) (l : List Sample) (hl : l.length < fs) :
    framesOf fs l = [] := by
  cases l with
  | nil => rfl
  | cons a t =>
    simp only [List.length_cons] at hl
    rw [framesOf]
    simp only [List.length_cons, framesOfAux]
    rw [if_neg (by omega)]

theorem framesOf_length (fs : Nat) (hfs : 0 < fs) :
    ∀ (n : Nat) (l : List Sample), l.length ≤ n → (framesOf fs l).length = l.length / fs := by
  intro n
  induction n with
  | zero =>
    intro l hl
    have hnil : l = [] := List.eq_nil_of_length_eq_zero (Nat.le_zero.mp hl)
    subst hnil
    simp [framesOf_nil]
  | succ n ih =>
    intro l hl
    by_cases hle : fs ≤ l.length
    · rw [framesOf_pos fs hfs l hle, List.length_cons,
        ih (l.drop fs) (by rw [List.length_drop]; omega), List.length_drop,
        Nat.div_eq_sub_div hfs hle]
    · rw [framesOf_neg fs l (by omega), List.length_nil,
        Eq.comm, Nat.div_eq_of_lt (by omega)]

theorem framesOf_mem_length (fs : Nat) (hfs : 0 < fs) :
    ∀ (n : Nat) (l : List Sample), l.length ≤ n →
      ∀ fr ∈ framesOf fs l, fr.length = fs := by
  intro n
  induction n with
  | zero =>
    intro l hl fr hfr
    have hnil : l = [] := List.eq_nil_of_length_eq_zero (Nat.le_zero.mp hl)
    subst hnil
    simp [framesOf_nil] at hfr
  | succ n ih =>
    intro l hl fr hfr
    by_cases hle : fs ≤ l.length
    · rw [framesOf_pos fs hfs l hle] at hfr
      rcases List.mem_cons.mp hfr with h | h
      · subst h; rw [List.length_take]; omega
      · exact ih (l.drop fs) (by rw [List.length_drop]; omega) fr h
    · rw [framesOf_neg fs l (by omega)] at hfr
      simp at hfr

theorem framesOf_getD (fs : Nat) (hfs : 0 < fs) :
    ∀ (i : Nat) (l : List Sample), fs * (i + 1) ≤ l.length →
      (framesOf fs l).getD i [] = (l.drop (fs * i)).take fs := by
  intro i
  induction i with
  | zero =>
    intro l hl
    rw [framesOf_pos fs hfs l (by omega), List.getD_cons_zero, Nat.mul_zero, List.drop_zero]
  | succ i ih =>
    intro l hl
    have h2 : fs * (i + 1) + fs ≤ l.length := by
      have hms : fs * (i + 1 + 1) = fs * (i + 1) + fs := Nat.mul_succ fs (i + 1)
      omega
    have h1 : fs ≤ l.length := by
      have h0 : 0 ≤ fs * (i + 1) := Nat.zero_le _
      omega
    rw [framesOf_pos fs hfs l h1, List.getD_cons_succ,
      ih (l.drop fs) (by rw [List.length_drop]; omega),
      List.drop_drop]
    have hms : fs + fs * i = fs * (i + 1) := by rw [Nat.mul_succ]; omega
    rw [hms]

theorem applyFrame_length (den : Transform) (hden : DenLenOk den) (f : List Sample) :
    (applyFrame den f).1.length = f.length := by
  cases h : den f with
  | none => simp [applyFrame, h]
  | some wv => simpa [applyFrame, h] using hden f wv.1 wv.2 (by rw [h])

theorem joinDen_nil (den : Transform) : joinDen den [] = [] := rfl

theorem joinDen_cons (den : Transform) (fr : List Sample) (F : List (List Sample)) :
    joinDen den (fr :: F) = (applyFrame den fr).1 ++ joinDen den F := by
  simp [joinDen]

theorem joinDen_append (den : Transform) (F G : List (List Sample)) :
    joinDen den (F ++ G) = joinDen den F ++ joinDen den G := by
  simp [joinDen]

theorem joinDen_length (den : Transform) (hden : DenLenOk den) (fs : Nat) :
    ∀ F : List (List Sample), (∀ fr ∈ F, fr.length = fs) →
      (joinDen den F).length = fs * F.length := by
  intro F
  induction F with
  | nil => intro _; simp [joinDen_nil]
  | cons fr F ih =>
    intro h
    rw [joinDen_cons, List.length_append, applyFrame_length den hden,
      h fr (List.mem_cons_self fr F), ih (fun x hx => h x (List.mem_cons_of_mem fr hx)),
      List.length_cons, Nat.mul_succ]
    omega

/-! ### Characterizations of the frame loop -/

theorem msgsOf_nil (den : Transform) (vadI ctr : Nat) : msgsOf den vadI ctr [] = [] := rfl

theorem msgsOf_cons (den : Transform) (vadI ctr : Nat) (fr : List Sample)
    (rest : List (List Sample)) :
    msgsOf den vadI ctr (fr :: rest) =
      (if jsModZero (ctr + 1) vadI then [(applyFrame den fr).2] else []) ++
        msgsOf den vadI (ctr + 1) rest := rfl

/-- When the output channel has room for everything that could be written,
the frame loop consumes exactly the complete frames of the buffer, writes
their denoised concatenation, and posts the VAD scores dictated by the
counter. -/
theorem runLoop_full (den : Transform) (fs vadI : Nat) (hfs : 0 < fs) (hden : DenLenOk den) :
    ∀ (fuel : Nat) (buf : List Sample) (ctr outIdx cap : Nat),
      buf.length ≤ fuel → outIdx + buf.length ≤ cap →
      runLoop den fs vadI cap fuel buf ctr outIdx =
        ⟨buf.drop (fs * (framesOf fs buf).length),
         ctr + (framesOf fs buf).length,
         outIdx + (joinDen den (framesOf fs buf)).length,
         joinDen den (framesOf fs buf),
         msgsOf den vadI ctr (framesOf fs buf)⟩ := by
  intro fuel
  induction fuel with
  | zero =>
    intro buf ctr outIdx cap hl hcap
    have hnil : buf = [] := List.eq_nil_of_length_eq_zero (Nat.le_zero.mp hl)
    subst hnil
    simp [runLoop, framesOf_nil, joinDen_nil, msgsOf_nil]
  | succ fuel ih =>
    intro buf ctr outIdx cap hl hcap
    by_cases hle : fs ≤ buf.length
    · have hlt : outIdx < cap := by omega
      have hcl : min fs (cap - outIdx) = fs := by omega
      have hwlen : (applyFrame den (buf.take fs)).1.length = fs := by
        rw [applyFrame_length den hden, List.length_take]; omega
      have hdl : (buf.drop fs).length ≤ fuel := by rw [List.length_drop]; omega
      have hdc : (outIdx + fs) + (buf.drop fs).length ≤ cap := by
        rw [List.length_drop]; omega
      simp only [runLoop, if_pos (And.intro hle hlt), hcl]
      rw [ih (buf.drop fs) (ctr + 1) (outIdx + fs) cap hdl hdc,
        framesOf_pos fs hfs buf hle]
      simp only [List.length_cons, joinDen_cons, msgsOf_cons,
        List.length_append, hwlen, List.drop_drop, List.take_of_length_le (Nat.le_of_eq hwlen)]
      rw [show fs + fs * (framesOf fs (buf.drop fs)).length =
            fs * ((framesOf fs (buf.drop fs)).length + 1) from by rw [Nat.mul_succ]; omega,
        show ctr + 1 + (framesOf fs (buf.drop fs)).length =
            ctr + ((framesOf fs (buf.drop fs)).length + 1) from by omega,
        show outIdx + fs + (joinDen den (framesOf fs (buf.drop fs))).length =
            outIdx + (fs + (joinDen den (framesOf fs (buf.drop fs))).length) from by omega]
    · have hlen : buf.length < fs := by omega
      simp only [runLoop]
      rw [if_neg (fun h => hle h.1)]
      simp [framesOf_neg fs buf hlen, joinDen_nil, msgsOf_nil]

/-- Whatever the capacity, the frame loop ends either with fewer than
`frameSize` samples buffered or with the output index at the capacity. -/
theorem runLoop_residual (den : Transform) (fs vadI : Nat) (hfs : 0 < fs) :
    ∀ (fuel : Nat) (buf : List Sample) (ctr outIdx cap : Nat),
      buf.length ≤ fuel → outIdx ≤ cap →
      (runLoop den fs vadI cap fuel buf ctr outIdx).buf.length < fs ∨
        (runLoop den fs vadI cap fuel buf ctr outIdx).outIdx = cap := by
  intro fuel
  induction fuel with
  | zero =>
    intro buf ctr outIdx cap hl _
    have hnil : buf = [] := List.eq_nil_of_length_eq_zero (Nat.le_zero.mp hl)
    subst hnil
    left
    simpa [runLoop] using hfs
  | succ fuel ih =>
    intro buf ctr outIdx cap hl hcap
    by_cases hg : fs ≤ buf.length ∧ outIdx < cap
    · simp only [runLoop, if_pos hg]
      exact ih (buf.drop fs) (ctr + 1) (outIdx + min fs (cap - outIdx)) cap
        (by rw [List.length_drop]; omega) (by omega)
    · simp only [runLoop, if_neg hg]
      rcases Nat.lt_or_ge buf.length fs with h | h
      · exact Or.inl h
      · right
        have : ¬ outIdx < cap := fun hc => hg ⟨h, hc⟩
        omega

/-- Whatever the capacity, the frame loop removes some whole number of
frames from the front of the buffer, advances the counter by that number,
and writes a prefix of the denoised concatenation of the removed frames,
truncated at the remaining capacity. -/
theorem runLoop_suffix (den : Transform) (fs vadI : Nat) (hfs : 0 < fs) (hden : DenLenOk den) :
    ∀ (fuel : Nat) (buf : List Sample) (ctr outIdx cap : Nat),
      buf.length ≤ fuel → outIdx ≤ cap →
      ∃ k, fs * k ≤ buf.length ∧
        (runLoop den fs vadI cap fuel buf ctr outIdx).buf = buf.drop (fs * k) ∧
        (runLoop den fs vadI cap fuel buf ctr outIdx).ctr = ctr + k ∧
        (runLoop den fs vadI cap fuel buf ctr outIdx).out =
          (joinDen den (framesOf fs (buf.take (fs * k)))).take (cap - outIdx) := by
  intro fuel
  induction fuel with
  | zero =>
    intro buf ctr outIdx cap hl _
    have hnil : buf = [] := List.eq_nil_of_length_eq_zero (Nat.le_zero.mp hl)
    subst hnil
    exact ⟨0, by simp [runLoop, framesOf_nil, joinDen_nil]⟩
  | succ fuel ih =>
    intro buf ctr outIdx cap hl hcap
    by_cases hg : fs ≤ buf.length ∧ outIdx < cap
    · obtain ⟨k, hk, hbuf, hctr, hout⟩ :=
        ih (buf.drop fs) (ctr + 1) (outIdx + min fs (cap - outIdx)) cap
          (by rw [List.length_drop]; omega) (by omega)
      rw [List.length_drop] at hk
      refine ⟨k + 1, ?_, ?_, ?_, ?_⟩
      · rw [Nat.mul_succ]; omega
      · simp only [runLoop, if_pos hg]
        rw [hbuf, List.drop_drop]
        rw [show fs + fs * k = fs * (k + 1) from by rw [Nat.mul_succ]; omega]
      · simp only [runLoop, if_pos hg]
        rw [hctr]; omega
      · simp only [runLoop, if_pos hg]
        rw [hout]
        have htk : (buf.take (fs * (k + 1))).length = fs * (k + 1) := by
          rw [List.length_take, Nat.mul_succ]
          omega
        have hfsle : fs ≤ (buf.take (fs * (k + 1))).length := by
          rw [htk, Nat.mul_succ]; omega
        rw [framesOf_pos fs hfs _ hfsle, joinDen_cons]
        have e1 : (buf.take (fs * (k + 1))).take fs = buf.take fs := by
          rw [List.take_take]
          congr 1
          rw [Nat.mul_succ]
          omega
        have e2 : (buf.take (fs * (k + 1))).drop fs = (buf.drop fs).take (fs * k) := by
          rw [List.drop_take]
          congr 1
          rw [Nat.mul_succ]
          omega
        rw [e1, e2]
        have hwlen : (applyFrame den (buf.take fs)).1.length = fs := by
          rw [applyFrame_length den hden, List.length_take]; omega
        rw [List.take_append_eq_append_take, hwlen]
        congr 1
        · rcases Nat.le_total fs (cap - outIdx) with h | h
          · have hmin : min fs (cap - outIdx) = fs := by omega
            rw [hmin, List.take_of_length_le (Nat.le_of_eq hwlen),
              List.take_of_length_le (by omega : (applyFrame den (buf.take fs)).1.length ≤ cap - outIdx)]
          · have hmin : min fs (cap - outIdx) = cap - outIdx := by omega
            rw [hmin]
        · congr 1
          rcases Nat.le_total fs (cap - outIdx) with h | h
          · have hmin : min fs (cap - outIdx) = fs := by omega
            rw [hmin]; omega
          · have hmin : min fs (cap - outIdx) = cap - outIdx := by omega
            rw [hmin]; omega
    · refine ⟨0, by omega, ?_, ?_, ?_⟩ <;> simp [runLoop, if_neg hg, framesOf_nil, joinDen_nil]

/-! ### Characterizations of one `process` call -/

/-- With enough output capacity, one `process` call emits the denoised
concatenation of the complete frames of `buffered ++ input`, keeps the
remainder buffered, advances the counter by the number of frames, and
posts the VAD scores at the counter multiples. -/
theorem process_full (den : Transform) (s : WorkletState) (inp : List Sample) (cap : Nat)
    (hfs : 0 < s.frameSize) (hden : DenLenOk den)
    (hcap : s.buf.length + inp.length ≤ cap) :
    (process den s inp cap).out = joinDen den (framesOf s.frameSize (s.buf ++ inp)) ∧
    (process den s inp cap).state.buf = residualOf s.frameSize (s.buf ++ inp) ∧
    (process den s inp cap).state.frameCounter =
      s.frameCounter + (framesOf s.frameSize (s.buf ++ inp)).length ∧
    (process den s inp cap).msgs =
      msgsOf den s.vadInterval s.frameCounter (framesOf s.frameSize (s.buf ++ inp)) := by
  have h := runLoop_full den s.frameSize s.vadInterval hfs hden (s.buf ++ inp).length
    (s.buf ++ inp) s.frameCounter 0 cap (Nat.le_refl _)
    (by rw [List.length_append]; omega)
  rw [List.length_append] at h
  simp [process, h, residualOf]

/-- One `process` call, at any capacity, removes some whole number of
complete frames from the front of `buffered ++ input` (nothing else is
ever removed from the buffer), advances the counter by that number, and
writes exactly the first `capacity` samples of the denoised concatenation
of the removed frames. -/
theorem process_suffix (den : Transform) (s : WorkletState) (inp : List Sample) (cap : Nat)
    (hfs : 0 < s.frameSize) (hden : DenLenOk den) :
    ∃ k, s.frameSize * k ≤ (s.buf ++ inp).length ∧
      (process den s inp cap).state.buf = (s.buf ++ inp).drop (s.frameSize * k) ∧
      (process den s inp cap).state.frameCounter = s.frameCounter + k ∧
      (process den s inp cap).out =
        (joinDen den (framesOf s.frameSize ((s.buf ++ inp).take (s.frameSize * k)))).take cap := by
  obtain ⟨k, hk, hbuf, hctr, hout⟩ := runLoop_suffix den s.frameSize s.vadInterval hfs hden
    (s.buf ++ inp).length (s.buf ++ inp) s.frameCounter 0 cap (Nat.le_refl _) (Nat.zero_le _)
  exact ⟨k, hk, hbuf, hctr, by simpa [process] using hout⟩

/-- After one `process` call, either fewer than `frameSize` samples remain
buffered, or the call filled the output channel completely. -/
theorem process_residual (den : Transform) (s : WorkletState) (inp : List Sample) (cap : Nat)
    (hfs : 0 < s.frameSize) :
    (process den s inp cap).state.buf.length < s.frameSize ∨
      (process den s inp cap).outIdx = cap :=
  runLoop_residual den s.frameSize s.vadInterval hfs (s.buf ++ inp).length
    (s.buf ++ inp) s.frameCounter 0 cap (Nat.le_refl _) (Nat.zero_le _)

theorem process_frameSize (den : Transform) (s : WorkletState) (inp : List Sample) (cap : Nat) :
    (process den s inp cap).state.frameSize = s.frameSize := rfl

theorem process_vadInterval (den : Transform) (s : WorkletState) (inp : List Sample) (cap : Nat) :
    (process den s inp cap).state.vadInterval = s.vadInterval := rfl

/-! ### The frame decomposition under concatenation -/

theorem residualOf_nil (fs : Nat) : residualOf fs [] = [] := rfl

theorem residualOf_of_short (fs : Nat) (l : List Sample) (hl : l.length < fs) :
    residualOf fs l = l := by
  rw [residualOf, framesOf_neg fs l hl]
  simp

theorem frames_count_le (fs : Nat) (hfs : 0 < fs) (l : List Sample) :
    fs * (framesOf fs l).length ≤ l.length := by
  rw [framesOf_length fs hfs l.length l (Nat.le_refl _)]
  calc fs * (l.length / fs) = l.length / fs * fs := Nat.mul_comm _ _
    _ ≤ l.length := Nat.div_mul_le_self _ _

theorem residualOf_length_lt (fs : Nat) (hfs : 0 < fs) (l : List Sample) :
    (residualOf fs l).length < fs := by
  rw [residualOf, List.length_drop, framesOf_length fs hfs l.length l (Nat.le_refl _)]
  have h := Nat.div_add_mod l.length fs
  have h2 := Nat.mod_lt l.length hfs
  omega

theorem framesOf_append (fs : Nat) (hfs : 0 < fs) :
    ∀ (n : Nat) (l m : List Sample), l.length ≤ n →
      framesOf fs (l ++ m) = framesOf fs l ++ framesOf fs (residualOf fs l ++ m) := by
  intro n
  induction n with
  | zero =>
    intro l m hl
    have hnil : l = [] := List.eq_nil_of_length_eq_zero (Nat.le_zero.mp hl)
    subst hnil
    simp [framesOf_nil, residualOf_nil]
  | succ n ih =>
    intro l m hl
    by_cases hle : fs ≤ l.length
    · have htm : (l ++ m).take fs = l.take fs := by
        rw [List.take_append_eq_append_take,
          show fs - l.length = 0 from by omega, List.take_zero, List.append_nil]
      have hdm : (l ++ m).drop fs = l.drop fs ++ m := by
        rw [List.drop_append_eq_append_drop,
          show fs - l.length = 0 from by omega, List.drop_zero]
      have hres : residualOf fs l = residualOf fs (l.drop fs) := by
        rw [residualOf, residualOf, framesOf_pos fs hfs l hle, List.length_cons,
          List.drop_drop]
        rw [show fs + fs * (framesOf fs (l.drop fs)).length =
              fs * ((framesOf fs (l.drop fs)).length + 1) from by rw [Nat.mul_succ]; omega]
      rw [framesOf_pos fs hfs (l ++ m) (by rw [List.length_append]; omega),
        framesOf_pos fs hfs l hle, htm, hdm,
        ih (l.drop fs) m (by rw [List.length_drop]; omega), hres,
        List.cons_append]
    · rw [framesOf_neg fs l (by omega), residualOf_of_short fs l (by omega)]
      simp

theorem residualOf_append (fs : Nat) (hfs : 0 < fs) (l m : List Sample) :
    residualOf fs (l ++ m) = residualOf fs (residualOf fs l ++ m) := by
  have hsplit := framesOf_append fs hfs l.length l m (Nat.le_refl _)
  have hc := frames_count_le fs hfs l
  rw [residualOf, hsplit, List.length_append,
    show fs * ((framesOf fs l).length + (framesOf fs (residualOf fs l ++ m)).length) =
      fs * (framesOf fs l).length + fs * (framesOf fs (residualOf fs l ++ m)).length from by
        rw [Nat.mul_add],
    Eq.comm, residualOf, ← List.drop_drop]
  congr 1
  rw [List.drop_append_eq_append_drop,
    show fs * (framesOf fs l).length - l.length = 0 from by omega]
  rw [List.drop_zero]
  rfl

/-! ### Sequences of calls -/

/-- Over any sequence of calls with sufficient per-call capacity, starting
from a state whose buffer holds less than one frame, the concatenated
output is the denoised concatenation of the complete frames of the whole
(buffered plus fed) sample sequence, and the final buffer is its
residual. -/
theorem runChunks_out (den : Transform) (hden : DenLenOk den) :
    ∀ (chunks : List (List Sample)) (s : WorkletState), 0 < s.frameSize →
      s.buf.length < s.frameSize →
      (runChunks den s chunks).out =
        joinDen den (framesOf s.frameSize (s.buf ++ chunks.flatten)) ∧
      (runChunks den s chunks).state.buf =
        residualOf s.frameSize (s.buf ++ chunks.flatten) := by
  intro chunks
  induction chunks with
  | nil =>
    intro s hfs hb
    simp only [runChunks, List.flatten_nil, List.append_nil]
    rw [framesOf_neg s.frameSize s.buf hb, residualOf_of_short s.frameSize s.buf hb]
    exact ⟨rfl, rfl⟩
  | cons c rest ih =>
    intro s hfs hb
    obtain ⟨hout, hbuf, _, _⟩ :=
      process_full den s c (s.buf.length + c.length) hfs hden (Nat.le_refl _)
    have hfs' : 0 < (process den s c (s.buf.length + c.length)).state.frameSize := by
      rw [process_frameSize]; exact hfs
    have hb' : (process den s c (s.buf.length + c.length)).state.buf.length <
        (process den s c (s.buf.length + c.length)).state.frameSize := by
      rw [process_frameSize, hbuf]
      exact residualOf_length_lt s.frameSize hfs (s.buf ++ c)
    obtain ⟨ihout, ihbuf⟩ := ih (process den s c (s.buf.length + c.length)).state hfs' hb'
    rw [process_frameSize, hbuf] at ihout ihbuf
    constructor
    · show (process den s c (s.buf.length + c.length)).out ++
        (runChunks den (process den s c (s.buf.length + c.length)).state rest).out = _
      rw [hout, ihout, ← joinDen_append, List.flatten_cons, ← List.append_assoc]
      congr 1
      exact (framesOf_append s.frameSize hfs (s.buf ++ c).length (s.buf ++ c)
        rest.flatten (Nat.le_refl _)).symm
    · show (runChunks den (process den s c (s.buf.length + c.length)).state rest).state.buf = _
      rw [ihbuf, List.flatten_cons, ← List.append_assoc]
      exact (residualOf_append s.frameSize hfs (s.buf ++ c) rest.flatten).symm

/-- The positions at which VAD scores are posted: `msgsOf` forwards, for
each index `i` of the frame list with `(ctr + i + 1) % vadInterval = 0`,
the VAD score of exactly that frame. -/
theorem msgsOf_eq (den : Transform) (vadI : Nat) :
    ∀ (frames : List (List Sample)) (ctr : Nat),
      msgsOf den vadI ctr frames =
        ((List.range frames.length).filter fun i => jsModZero (ctr + i + 1) vadI).map
          fun i => (applyFrame den (frames.getD i [])).2 := by
  intro frames
  induction frames with
  | nil => intro ctr; simp [msgsOf_nil]
  | cons fr rest ih =>
    intro ctr
    have hpred : ((fun i => jsModZero (ctr + i + 1) vadI) ∘ Nat.succ) =
        fun i => jsModZero (ctr + 1 + i + 1) vadI := by
      funext i
      simp only [Function.comp_apply]
      rw [show ctr + Nat.succ i + 1 = ctr + 1 + i + 1 from by omega]
    have hg : ((fun i => (applyFrame den ((fr :: rest).getD i [])).2) ∘ Nat.succ) =
        fun i => (applyFrame den (rest.getD i [])).2 := by
      funext i
      simp only [Function.comp_apply, Nat.succ_eq_add_one, List.getD_cons_succ]
    rw [msgsOf_cons, ih (ctr + 1), List.length_cons, List.range_succ_eq_map,
      List.filter_cons]
    by_cases h0 : jsModZero (ctr + 1) vadI = true
    · have h0' : (fun i => jsModZero (ctr + i + 1) vadI) 0 = true := by simpa using h0
      rw [if_pos h0, if_pos h0']
      simp only [List.map_cons, List.filter_map, List.map_map, hpred, hg,
        List.getD_cons_zero, List.singleton_append]
    · have h0' : ¬ (fun i => jsModZero (ctr + i + 1) vadI) 0 = true := by simpa using h0
      rw [if_neg h0, if_neg h0']
      simp only [List.nil_append, List.filter_map, List.map_map, hpred, hg]

/-- Reading one `fs`-sized block out of the flattening of a list of
`fs`-sized blocks. -/
theorem flatten_blocks (fs : Nat) :
    ∀ (L : List (List Sample)), (∀ x ∈ L, x.length = fs) →
      ∀ j, j < L.length → ((L.flatten).drop (fs * j)).take fs = L.getD j [] := by
  intro L
  induction L with
  | nil => intro _ j hj; simp at hj
  | cons a L ih =>
    intro hlen j hj
    have ha : a.length = fs := hlen a (List.mem_cons_self a L)
    cases j with
    | zero =>
      rw [Nat.mul_zero, List.drop_zero, List.flatten_cons, List.getD_cons_zero,
        List.take_append_eq_append_take, ha, Nat.sub_self, List.take_zero,
        List.append_nil, List.take_of_length_le (Nat.le_of_eq ha)]
    | succ j =>
      rw [List.flatten_cons, List.getD_cons_succ, List.drop_append_eq_append_drop, ha,
        show fs * (j + 1) - fs = fs * j from by rw [Nat.mul_succ]; omega,
        List.drop_of_length_le (by rw [ha, Nat.mul_succ]; omega), List.nil_append]
      exact ih (fun x hx => hlen x (List.mem_cons_of_mem a hx)) j (by
        simpa using Nat.lt_of_succ_lt_succ hj)

/-! ### VAD interval zero -/

theorem jsModZero_zero (n : Nat) : jsModZero n 0 = false := rfl

theorem runLoop_msgs_vadI_zero (den : Transform) (fs cap : Nat) :
    ∀ (fuel : Nat) (buf : List Sample) (ctr outIdx : Nat),
      (runLoop den fs 0 cap fuel buf ctr outIdx).msgs = [] := by
  intro fuel
  induction fuel with
  | zero => intro buf ctr outIdx; rfl
  | succ fuel ih =>
    intro buf ctr outIdx
    by_cases hg : fs ≤ buf.length ∧ outIdx < cap
    · simp only [runLoop, if_pos hg, jsModZero_zero]
      simp [ih]
    · simp [runLoop, if_neg hg]

theorem process_msgs_vadI_zero (den : Transform) (s : WorkletState) (inp : List Sample)
    (cap : Nat) (h : s.vadInterval = 0) : (process den s inp cap).msgs = [] := by
  simp only [process, h]
  exact runLoop_msgs_vadI_zero den s.frameSize cap _ _ _ _

theorem runCalls_msgs_vadI_zero (den : Transform) :
    ∀ (calls : List (List Sample × Nat)) (s : WorkletState), s.vadInterval = 0 →
      (runCalls den s calls).msgs = [] := by
  intro calls
  induction calls with
  | nil => intro s _; rfl
  | cons c rest ih =>
    intro s h
    obtain ⟨inp, cap⟩ := c
    simp only [runCalls]
    rw [process_msgs_vadI_zero den s inp cap h,
      ih _ (by rw [process_vadInterval]; exact h)]
    rfl

/-! ### Lemmas about the speaking-state evaluation -/

theorem pushHist_subset (h : List ℚ) (r x : ℚ) (hx : x ∈ pushHist h r) : x ∈ h ∨ x = r := by
  simp only [pushHist] at hx
  split at hx
  · have hx' : x ∈ h ++ [r] := List.mem_of_mem_drop hx
    rcases List.mem_append.mp hx' with h1 | h2
    · exact Or.inl h1
    · exact Or.inr (by simpa using h2)
  · rcases List.mem_append.mp hx with h1 | h2
    · exact Or.inl h1
    · exact Or.inr (by simpa using h2)

theorem pushHist_length_pos (h : List ℚ) (r : ℚ) : 0 < (pushHist h r).length := by
  have h1 : (h ++ [r]).length = h.length + 1 := by
    rw [List.length_append, List.length_cons, List.length_nil]
  have hr5 : rmsHistoryLength = 5 := rfl
  simp only [pushHist]
  split
  · next hlen =>
    rw [h1, hr5] at hlen
    rw [List.length_drop, h1]
    omega
  · rw [h1]
    omega

theorem pushHist_ne_nil (h : List ℚ) (r : ℚ) : pushHist h r ≠ [] := by
  intro hc
  have := pushHist_length_pos h r
  rw [hc] at this
  simp at this

theorem mul_length_lt_sum (a : ℚ) :
    ∀ l : List ℚ, l ≠ [] → (∀ x ∈ l, a < x) → a * l.length < l.sum := by
  intro l
  induction l with
  | nil => intro h _; exact absurd rfl h
  | cons x t ih =>
    intro _ hx
    cases t with
    | nil => simpa using hx x (by simp)
    | cons y u =>
      have ht := ih (by simp) (fun z hz => hx z (List.mem_cons_of_mem x hz))
      have hxx := hx x (List.mem_cons_self x _)
      rw [List.sum_cons, List.length_cons]
      push_cast
      push_cast at ht
      linarith

theorem sum_lt_mul_length (b : ℚ) :
    ∀ l : List ℚ, l ≠ [] → (∀ x ∈ l, x < b) → l.sum < b * l.length := by
  intro l
  induction l with
  | nil => intro h _; exact absurd rfl h
  | cons x t ih =>
    intro _ hx
    cases t with
    | nil => simpa using hx x (by simp)
    | cons y u =>
      have ht := ih (by simp) (fun z hz => hx z (List.mem_cons_of_mem x hz))
      have hxx := hx x (List.mem_cons_self x _)
      rw [List.sum_cons, List.length_cons]
      push_cast
      push_cast at ht
      linarith

theorem lt_avgOf (a : ℚ) (l : List ℚ) (hne : l ≠ []) (ha : ∀ x ∈ l, a < x) :
    a < avgOf l := by
  have hlen : (0 : ℚ) < l.length := by
    have : 0 < l.length := List.length_pos.mpr hne
    exact_mod_cast this
  rw [avgOf, lt_div_iff hlen]
  exact mul_length_lt_sum a l hne ha

theorem avgOf_lt (b : ℚ) (l : List ℚ) (hne : l ≠ []) (hb : ∀ x ∈ l, x < b) :
    avgOf l < b := by
  have hlen : (0 : ℚ) < l.length := by
    have : 0 < l.length := List.length_pos.mpr hne
    exact_mod_cast this
  rw [avgOf, div_lt_iff hlen]
  exact sum_lt_mul_length b l hne hb

theorem rmsNext_dead_zone (prev : Bool) (avg : ℚ)
    (h1 : speakingThresholdOff < avg) (h2 : avg < speakingThresholdOn) :
    rmsNext prev avg = prev := by
  rw [rmsNext, if_neg (fun hc => absurd hc.2 (not_le.mpr h2)),
    if_neg (fun hc => absurd hc.2 (not_lt.mpr (le_of_lt h1)))]

theorem vadNext_no_promotion (isLocal next : Bool) (vad : ℚ)
    (hv : isLocal = false ∨ vad < vadSpeakingThreshold) :
    vadNext isLocal next vad = next := by
  rw [vadNext, if_neg]
  rintro ⟨hL, _, hV⟩
  rcases hv with h | h
  · rw [h] at hL; exact Bool.false_ne_true hL
  · exact absurd hV (not_le.mpr h)

theorem tick_speaking (isLocal : Bool) (obj : SpeakerObj) (rms vad : ℚ) :
    (tick isLocal obj rms vad).obj.speaking =
      vadNext isLocal (rmsNext obj.speaking (avgOf (pushHist obj.history rms))) vad := by
  simp only [tick]
  split
  · rfl
  · next h =>
    push_neg at h
    exact h.symm

theorem tick_history (isLocal : Bool) (obj : SpeakerObj) (rms vad : ℚ) :
    (tick isLocal obj rms vad).obj.history = pushHist obj.history rms := by
  simp only [tick]
  split <;> rfl

theorem tick_notified_iff (isLocal : Bool) (obj : SpeakerObj) (rms vad : ℚ) :
    (tick isLocal obj rms vad).notified = true ↔
      (tick isLocal obj rms vad).obj.speaking ≠ obj.speaking := by
  simp only [tick]
  split
  · next h => simpa using h
  · next h => simpa using h

/-- One tick in the hysteresis dead zone with no applicable VAD promotion:
the speaking state is unchanged and the history stays inside the zone. -/
theorem tick_dead_zone (isLocal : Bool) (obj : SpeakerObj) (rms vad : ℚ)
    (hh : ∀ x ∈ obj.history, speakingThresholdOff < x ∧ x < speakingThresholdOn)
    (hr : speakingThresholdOff < rms ∧ rms < speakingThresholdOn)
    (hv : isLocal = false ∨ vad < vadSpeakingThreshold) :
    (tick isLocal obj rms vad).obj.speaking = obj.speaking ∧
    (∀ x ∈ (tick isLocal obj rms vad).obj.history,
      speakingThresholdOff < x ∧ x < speakingThresholdOn) := by
  have hmem : ∀ x ∈ pushHist obj.history rms,
      speakingThresholdOff < x ∧ x < speakingThresholdOn := by
    intro x hx
    rcases pushHist_subset obj.history rms x hx with h | h
    · exact hh x h
    · subst h; exact hr
  have havg1 : speakingThresholdOff < avgOf (pushHist obj.history rms) :=
    lt_avgOf _ _ (pushHist_ne_nil obj.history rms) (fun x hx => (hmem x hx).1)
  have havg2 : avgOf (pushHist obj.history rms) < speakingThresholdOn :=
    avgOf_lt _ _ (pushHist_ne_nil obj.history rms) (fun x hx => (hmem x hx).2)
  refine ⟨?_, ?_⟩
  · rw [tick_speaking, rmsNext_dead_zone obj.speaking _ havg1 havg2,
      vadNext_no_promotion isLocal obj.speaking vad hv]
  · rw [tick_history]
    exact hmem

/-- A run whose decided state is constantly the starting state emits no
notification at all. -/
theorem runTicks_steady (isLocal : Bool) :
    ∀ (inputs : List (ℚ × ℚ)) (obj : SpeakerObj),
      traceTicks isLocal obj inputs = List.replicate inputs.length obj.speaking →
      (runTicks isLocal obj inputs).2 = List.replicate inputs.length false := by
  intro inputs
  induction inputs with
  | nil => intro obj _; rfl
  | cons p rest ih =>
    intro obj htr
    obtain ⟨rms, vad⟩ := p
    simp only [traceTicks, List.length_cons, List.replicate_succ, List.cons.injEq] at htr
    obtain ⟨h1, h2⟩ := htr
    simp only [runTicks, List.length_cons, List.replicate_succ, List.cons.injEq]
    refine ⟨?_, ?_⟩
    · by_contra hn
      have hn' : (tick isLocal obj rms vad).notified = true := by
        cases hb : (tick isLocal obj rms vad).notified
        · exact absurd hb hn
        · rfl
      exact absurd h1 ((tick_notified_iff isLocal obj rms vad).mp hn')
    · exact ih (tick isLocal obj rms vad).obj (by rw [h1]; exact h2)

/-! ### Concrete collaborators used as witnesses -/

theorem idDen_lenOk : DenLenOk idDen := by
  intro f w v h
  simp only [idDen, Option.some.injEq, Prod.mk.injEq] at h
  rw [← h.1]

/-- A collaborator that throws exactly on the frame `[5]` and otherwise
passes samples through with VAD score `1`. -/
def failDen : Transform := fun fr => if fr = [5] then none else some (fr, 1)

theorem failDen_lenOk : DenLenOk failDen := by
  intro f w v h
  simp only [failDen] at h
  split at h
  · exact absurd h (by simp)
  · simp only [Option.some.injEq, Prod.mk.injEq] at h
    rw [← h.1]

/-! ### The claims -/

/-- C1, counterexample: with `frameSize = 2`, feeding `[1, 2, 3, 4]` into a
fresh processor against an output channel of capacity `2` consumes one
frame and stops with the capacity exhausted, leaving `2 = frameSize`
samples in the residual buffer — the claimed invariant
`residual length < frameSize` fails after this call. -/
theorem c1_counterexample :
    (initState 2 10).frameSize = 2 ∧
    (process idDen (initState 2 10) [1, 2, 3, 4] 2).state.frameSize = 2 ∧
    ¬ (process idDen (initState 2 10) [1, 2, 3, 4] 2).state.buf.length < 2 := by
  decide

/-- C1 (amended): after any `process` call (transform configured, positive
frame size, arbitrary prior state — hence at the end of every call of
every call sequence), the residual buffer holds fewer than `frameSize`
samples unless the call ended with the output capacity exhausted
(`outIndex = capacity`), in which case the residual may hold `frameSize`
or more samples; its length is a `Nat`, hence always at least `0`. -/
theorem c1_residual_invariant (den : Transform) (s : WorkletState) (inp : List Sample)
    (cap : Nat) (hfs : 0 < s.frameSize) :
    (process den s inp cap).state.buf.length < s.frameSize ∨
      (process den s inp cap).outIdx = cap :=
  process_residual den s inp cap hfs

/-- C1 witness: the amended disjunction at the counterexample's input (the
right disjunct holds there). -/
theorem c1_residual_invariant_witness :
    0 < (initState 2 10).frameSize ∧
    ((process idDen (initState 2 10) [1, 2, 3, 4] 2).state.buf.length <
        (initState 2 10).frameSize ∨
      (process idDen (initState 2 10) [1, 2, 3, 4] 2).outIdx = 2) :=
  ⟨by decide, c1_residual_invariant idDen (initState 2 10) [1, 2, 3, 4] 2 (by decide)⟩

/-- C2, counterexample: one call feeding a single sample (`N = 1`) with
output capacity `8` writes `0` samples, not `min 1 8 = 1`: samples short
of a complete frame are buffered, never written, so the claimed total
`min(N, capacity)` is wrong. -/
theorem c2_counterexample :
    (runCalls idDen (initState 2 10) [([1], 8)]).out.length = 0 ∧
    ¬ (runCalls idDen (initState 2 10) [([1], 8)]).out.length = min 1 8 := by
  decide

/-- C2 (amended): over any sequence of calls from a fresh processor in
which no call's output capacity limits it, the total written output is the
denoised concatenation of the complete frames of the total input: its
sample count is `frameSize * (N / frameSize)` (the final `N % frameSize`
samples stay buffered), and any two chunkings of the same flat input give
identical outputs — no sample is lost or duplicated. -/
theorem c2_chunking_invariance (den : Transform) (fs vadI1 vadI2 : Nat) (hfs : 0 < fs)
    (hden : DenLenOk den) (chunks1 chunks2 : List (List Sample))
    (hflat : chunks1.flatten = chunks2.flatten) :
    (runChunks den (initState fs vadI1) chunks1).out =
      (runChunks den (initState fs vadI2) chunks2).out ∧
    (runChunks den (initState fs vadI1) chunks1).out.length =
      fs * (chunks1.flatten.length / fs) := by
  obtain ⟨ho1, _⟩ := runChunks_out den hden chunks1 (initState fs vadI1)
    (by simpa [initState] using hfs) (by simpa [initState] using hfs)
  obtain ⟨ho2, _⟩ := runChunks_out den hden chunks2 (initState fs vadI2)
    (by simpa [initState] using hfs) (by simpa [initState] using hfs)
  rw [show (initState fs vadI1).frameSize = fs from rfl,
    show (initState fs vadI1).buf = [] from rfl, List.nil_append] at ho1
  rw [show (initState fs vadI2).frameSize = fs from rfl,
    show (initState fs vadI2).buf = [] from rfl, List.nil_append] at ho2
  constructor
  · rw [ho1, ho2, hflat]
  · rw [ho1,
      joinDen_length den hden fs _
        (framesOf_mem_length fs hfs chunks1.flatten.length chunks1.flatten (Nat.le_refl _)),
      framesOf_length fs hfs chunks1.flatten.length chunks1.flatten (Nat.le_refl _)]

/-- C2 witness: splitting `[1, 2, 3]` as `[[1], [2, 3]]` or `[[1, 2, 3]]`
with `frameSize = 2` gives the same written output, of length
`2 * (3 / 2) = 2`. -/
theorem c2_chunking_invariance_witness :
    (runChunks idDen (initState 2 10) [[1], [2, 3]]).out =
      (runChunks idDen (initState 2 7) [[1, 2, 3]]).out ∧
    (runChunks idDen (initState 2 10) [[1], [2, 3]]).out.length = 2 * (3 / 2) :=
  (c2_chunking_invariance idDen 2 10 7 (by decide) idDen_lenOk
      [[1], [2, 3]] [[1, 2, 3]] (by decide)).imp id
    (fun h => by rw [h]; decide)

/-- C6, counterexample: the constructor accepts `frameSize = 0` (which the
spec's `configure` rejects with a `ConfigurationError`) and returns an
ordinary state — no validation happens at configuration time. -/
theorem c6_counterexample :
    construct 0 10 =
      { frameSize := 0, vadInterval := 10, buf := [], work := [], frameCounter := 0 } ∧
    specConfigure 0 10 = Except.error ("ConfigurationError") :=
  ⟨rfl, rfl⟩

/-- C6 (amended): for every invalid configuration with non-positive
`frameSize` or `vadInterval` (and `frameSize ≥ 0`, so that the JS
typed-array allocation itself succeeds), the spec-modelled `configure`
rejects with a `ConfigurationError`, but the repository's constructor
performs no validation: it accepts the values and stores them unchanged,
raising no error before processing starts. -/
theorem c6_no_validation (fs vI : Int) (h : (fs ≤ 0 ∨ vI ≤ 0) ∧ 0 ≤ fs) :
    specConfigure fs vI = Except.error ("ConfigurationError") ∧
    construct fs vI = CtorState.mk fs vI [] (List.replicate fs.toNat 0) 0 :=
  ⟨by rw [specConfigure, if_pos h.1], rfl⟩

/-- C6 witness: the amended statement at `frameSize = 0`,
`vadInterval = 10`. -/
theorem c6_no_validation_witness :
    (((0 : Int) ≤ 0 ∨ (10 : Int) ≤ 0) ∧ (0 : Int) ≤ 0) ∧
    (specConfigure 0 10 = Except.error ("ConfigurationError") ∧
      construct 0 10 = CtorState.mk 0 10 [] (List.replicate (0 : Int).toNat 0) 0) :=
  ⟨⟨Or.inl (le_refl 0), le_refl 0⟩, c6_no_validation 0 10 ⟨Or.inl (le_refl 0), le_refl 0⟩⟩

/-- C9: one `process` call (from an arbitrary state, hence also any later
call of a sequence) removes exactly some whole number `k` of complete
frames from the front of `buffered ++ input`: the residual buffer is the
exact remaining suffix (which may hold `frameSize` or more samples when
the capacity cut the loop short — nothing buffered is ever dropped, and
later calls consume it in arrival order from the front), and the written
output is the denoised concatenation of the `k` consumed frames truncated
at the output capacity — only the uncopied tail of a consumed frame is
discarded. -/
theorem c9_buffer_preserved (den : Transform) (s : WorkletState) (inp : List Sample)
    (cap : Nat) (hfs : 0 < s.frameSize) (hden : DenLenOk den) :
    ∃ k, s.frameSize * k ≤ (s.buf ++ inp).length ∧
      (process den s inp cap).state.buf = (s.buf ++ inp).drop (s.frameSize * k) ∧
      (process den s inp cap).state.frameCounter = s.frameCounter + k ∧
      (process den s inp cap).out =
        (joinDen den (framesOf s.frameSize ((s.buf ++ inp).take (s.frameSize * k)))).take cap :=
  process_suffix den s inp cap hfs hden

/-- C9 witness: the statement at a state that already buffers `[1, 2, 3]`
with `frameSize = 2` and capacity `2`: one frame is consumed, the rest
stays buffered. -/
theorem c9_buffer_preserved_witness :
    0 < (2 : Nat) ∧
    ∃ k, 2 * k ≤ (([1, 2, 3] : List Sample) ++ [4, 5]).length ∧
      (process idDen ⟨2, 10, [1, 2, 3], 4⟩ [4, 5] 2).state.buf =
        (([1, 2, 3] : List Sample) ++ [4, 5]).drop (2 * k) ∧
      (process idDen ⟨2, 10, [1, 2, 3], 4⟩ [4, 5] 2).state.frameCounter = 4 + k ∧
      (process idDen ⟨2, 10, [1, 2, 3], 4⟩ [4, 5] 2).out =
        (joinDen idDen (framesOf 2 ((([1, 2, 3] : List Sample) ++ [4, 5]).take (2 * k)))).take 2 :=
  ⟨by decide, c9_buffer_preserved idDen ⟨2, 10, [1, 2, 3], 4⟩ [4, 5] 2 (by decide) idDen_lenOk⟩

/-- C10: with `vadInterval = 0` every `process` call still completes (the
embedded `process` is a total function; the JS `counter % 0` is `NaN`,
which never equals `0`), and across any sequence of calls no VAD message
is ever posted. -/
theorem c10_no_vad_messages (den : Transform) (s : WorkletState)
    (calls : List (List Sample × Nat)) (h : s.vadInterval = 0) :
    (runCalls den s calls).msgs = [] :=
  runCalls_msgs_vadI_zero den calls s h

/-- C10 witness: a fresh processor with `vadInterval = 0` fed two calls
posts no VAD message. -/
theorem c10_no_vad_messages_witness :
    (initState 480 0).vadInterval = 0 ∧
    (runCalls idDen (initState 2 0) [([1, 2, 3], 4), ([4], 2)]).msgs = [] :=
  ⟨rfl, c10_no_vad_messages idDen (initState 2 0) [([1, 2, 3], 4), ([4], 2)] rfl⟩

/-- C3, counterexample: local participant starting Quiet with RMS held at
`0`: the first tick with VAD `0.8` promotes to Speaking, but on the next
tick, with VAD dropped to `0` and RMS still `0`, the RMS rule
(`avg 0 < speakingThresholdOff` while Speaking) reverts the state to
Quiet — contrary to the claim that the state does not revert on that
tick. -/
theorem c3_counterexample :
    (tick true ⟨[], false⟩ 0 (8/10)).obj.speaking = true ∧
    (tick true (tick true ⟨[], false⟩ 0 (8/10)).obj 0 0).obj.speaking = false := by
  norm_num [tick, pushHist, avgOf, rmsNext, vadNext, speakingThresholdOn,
    speakingThresholdOff, vadSpeakingThreshold, rmsHistoryLength]

/-- C3 (amended): with RMS at `0` and VAD `0.8`, one tick promotes the
local participant from Quiet to Speaking; on the next tick, with VAD `0`
and RMS `0`, the RMS rule does revert the state to Quiet.  The VAD
reinforcement itself is promotion-only: whenever the RMS decision of a
tick is Speaking, the tick's final state is Speaking regardless of the VAD
value — the VAD step never demotes Speaking to Quiet within a tick. -/
theorem c3_vad_promotion_only :
    ((tick true ⟨[], false⟩ 0 (8/10)).obj.speaking = true ∧
      (tick true (tick true ⟨[], false⟩ 0 (8/10)).obj 0 0).obj.speaking = false) ∧
    ∀ (isLocal : Bool) (obj : SpeakerObj) (rms vad : ℚ),
      rmsNext obj.speaking (avgOf (pushHist obj.history rms)) = true →
      (tick isLocal obj rms vad).obj.speaking = true := by
  constructor
  · norm_num [tick, pushHist, avgOf, rmsNext, vadNext, speakingThresholdOn,
      speakingThresholdOff, vadSpeakingThreshold, rmsHistoryLength]
  · intro isLocal obj rms vad h
    rw [tick_speaking, h]
    simp [vadNext]

/-- C3 witness: the promotion-only part at a concrete tick whose RMS
decision is Speaking. -/
theorem c3_vad_promotion_only_witness :
    rmsNext (SpeakerObj.mk [] false).speaking
      (avgOf (pushHist (SpeakerObj.mk [] false).history 1)) = true ∧
    (tick false ⟨[], false⟩ 1 0).obj.speaking = true := by
  have h : rmsNext (SpeakerObj.mk [] false).speaking
      (avgOf (pushHist (SpeakerObj.mk [] false).history 1)) = true := by
    norm_num [rmsNext, avgOf, pushHist, rmsHistoryLength, speakingThresholdOn,
      speakingThresholdOff]
  exact ⟨h, c3_vad_promotion_only.2 false ⟨[], false⟩ 1 0 h⟩

/-- C7: for every participant and every starting state, if every RMS input
(and every prior history entry) lies strictly between
`speakingThresholdOff` and `speakingThresholdOn` — so the moving average
does too — and no VAD promotion applies (remote participant, or VAD below
`vadSpeakingThreshold`), then any number of evaluation ticks leaves the
speaking state unchanged: no oscillation in the hysteresis dead zone. -/
theorem c7_hysteresis_dead_zone (isLocal : Bool) (v : ℚ)
    (hv : speakingThresholdOff < v ∧ v < speakingThresholdOn) :
    ∀ (vads : List ℚ) (obj : SpeakerObj),
      (∀ x ∈ obj.history, speakingThresholdOff < x ∧ x < speakingThresholdOn) →
      (∀ w ∈ vads, isLocal = false ∨ w < vadSpeakingThreshold) →
      (runTicks isLocal obj (vads.map fun w => (v, w))).1.speaking = obj.speaking := by
  intro vads
  induction vads with
  | nil => intro obj _ _; rfl
  | cons w ws ih =>
    intro obj hh hw
    simp only [List.map_cons, runTicks]
    obtain ⟨hs, hhist⟩ := tick_dead_zone isLocal obj v w hh hv
      (hw w (List.mem_cons_self w ws))
    rw [ih (tick isLocal obj v w).obj hhist
      (fun z hz => hw z (List.mem_cons_of_mem w hz)), hs]

/-- C7 witness: one tick at RMS `0.03` (inside the dead zone) with VAD `0`
leaves a Quiet local participant Quiet. -/
theorem c7_hysteresis_dead_zone_witness :
    (speakingThresholdOff < (3/100 : ℚ) ∧ (3/100 : ℚ) < speakingThresholdOn) ∧
    (runTicks true ⟨[], false⟩ ([0].map fun w => ((3/100 : ℚ), w))).1.speaking = false := by
  have hv : speakingThresholdOff < (3/100 : ℚ) ∧ (3/100 : ℚ) < speakingThresholdOn := by
    norm_num [speakingThresholdOn, speakingThresholdOff]
  refine ⟨hv, c7_hysteresis_dead_zone true (3/100) hv [0] ⟨[], false⟩ (by simp) ?_⟩
  intro w hw
  right
  have hw0 : w = 0 := by simpa using hw
  rw [hw0]
  norm_num [vadSpeakingThreshold]

/-- C8: a notification fires on a tick exactly when the decided state
differs from the participant's state at the previous tick; consequently,
over any run of ticks whose decided state is constant, no notification is
emitted after the first settling tick. -/
theorem c8_notification_on_change_only (isLocal : Bool) (obj : SpeakerObj)
    (inputs : List (ℚ × ℚ)) (b : Bool) :
    (∀ rms vad : ℚ, ((tick isLocal obj rms vad).notified = true ↔
        (tick isLocal obj rms vad).obj.speaking ≠ obj.speaking)) ∧
    (traceTicks isLocal obj inputs = List.replicate inputs.length b →
      (runTicks isLocal obj inputs).2.drop 1 = List.replicate (inputs.length - 1) false) := by
  refine ⟨fun rms vad => tick_notified_iff isLocal obj rms vad, ?_⟩
  intro htr
  cases inputs with
  | nil => rfl
  | cons p rest =>
    obtain ⟨rms, vad⟩ := p
    simp only [traceTicks, List.length_cons, List.replicate_succ, List.cons.injEq] at htr
    obtain ⟨h1, h2⟩ := htr
    have hsteady := runTicks_steady isLocal rest (tick isLocal obj rms vad).obj
      (by rw [h1]; exact h2)
    simp only [runTicks, List.length_cons, List.drop_succ_cons, List.drop_zero,
      Nat.add_sub_cancel]
    exact hsteady

/-- C8 witness: two quiet ticks produce a constant trace and no
notification after the first tick. -/
theorem c8_notification_on_change_only_witness :
    (traceTicks false ⟨[], false⟩ [(0, 0), (0, 0)] = List.replicate 2 false) ∧
    (runTicks false ⟨[], false⟩ [(0, 0), (0, 0)]).2.drop 1 = List.replicate 1 false := by
  have htr : traceTicks false ⟨[], false⟩ [(0, 0), (0, 0)] = List.replicate 2 false := by
    norm_num [traceTicks, tick, pushHist, avgOf, rmsNext, vadNext, speakingThresholdOn,
      speakingThresholdOff, vadSpeakingThreshold, rmsHistoryLength, List.replicate]
  exact ⟨htr,
    (c8_notification_on_change_only false ⟨[], false⟩ [(0, 0), (0, 0)] false).2 htr⟩

/-- C4: with `vadInterval = 10`, a fresh processor fed `25` frames worth
of input (with enough output capacity to process them all) posts exactly
two VAD notifications, carrying the scores of the `10`-th and `20`-th
frames — the score of the frame that triggered each counter boundary,
last-value semantics, not an average. -/
theorem c4_vad_interval (den : Transform) (fs : Nat) (hfs : 0 < fs) (hden : DenLenOk den)
    (input : List Sample) (hlen : input.length = 25 * fs) :
    (process den (initState fs 10) input (25 * fs)).msgs =
      [(applyFrame den ((input.drop (fs * 9)).take fs)).2,
       (applyFrame den ((input.drop (fs * 19)).take fs)).2] := by
  obtain ⟨-, -, -, hmsgs⟩ := process_full den (initState fs 10) input (25 * fs) hfs hden
    (by simp [initState, hlen])
  rw [show (initState fs 10).vadInterval = 10 from rfl,
    show (initState fs 10).frameCounter = 0 from rfl,
    show (initState fs 10).frameSize = fs from rfl,
    show (initState fs 10).buf = [] from rfl, List.nil_append] at hmsgs
  rw [hmsgs, msgsOf_eq]
  have hflen : (framesOf fs input).length = 25 := by
    rw [framesOf_length fs hfs input.length input (Nat.le_refl _), hlen,
      Nat.mul_div_cancel 25 hfs]
  rw [hflen,
    show ((List.range 25).filter fun i => jsModZero (0 + i + 1) 10) = [9, 19] from by decide]
  have h9 : (framesOf fs input).getD 9 [] = (input.drop (fs * 9)).take fs :=
    framesOf_getD fs hfs 9 input (by
      rw [hlen]
      calc fs * (9 + 1) ≤ fs * 25 := Nat.mul_le_mul_left fs (by omega)
        _ = 25 * fs := Nat.mul_comm fs 25)
  have h19 : (framesOf fs input).getD 19 [] = (input.drop (fs * 19)).take fs :=
    framesOf_getD fs hfs 19 input (by
      rw [hlen]
      calc fs * (19 + 1) ≤ fs * 25 := Nat.mul_le_mul_left fs (by omega)
        _ = 25 * fs := Nat.mul_comm fs 25)
  simp only [List.map_cons, List.map_nil, h9, h19]

/-- C4 witness: `frameSize = 1`, `25` zero samples through the
pass-through collaborator: two notifications, both carrying `0`. -/
theorem c4_vad_interval_witness :
    (List.replicate 25 (0 : ℚ)).length = 25 * 1 ∧
    (process idDen (initState 1 10) (List.replicate 25 0) (25 * 1)).msgs =
      [(applyFrame idDen (((List.replicate 25 (0 : ℚ)).drop (1 * 9)).take 1)).2,
       (applyFrame idDen (((List.replicate 25 (0 : ℚ)).drop (1 * 19)).take 1)).2] :=
  ⟨by decide,
   c4_vad_interval idDen 1 (by decide) idDen_lenOk (List.replicate 25 0) (by decide)⟩

/-- C5: if the collaborator throws on the `i`-th frame (of `n` complete
frames fed to a fresh processor with enough capacity), the `process` call
still returns normally: the output samples of that frame are the original
(pre-transform) input samples of the frame, its VAD score is treated as
`0`, and every frame `j` — before and after the failing one — carries
exactly its own per-frame result, unaffected by the failure. -/
theorem c5_transform_failure (den : Transform) (fs vadI : Nat) (hfs : 0 < fs)
    (hden : DenLenOk den) (input : List Sample) (n : Nat) (hlen : input.length = n * fs)
    (cap : Nat) (hcap : input.length ≤ cap) (i : Nat) (hi : i < n)
    (hfail : den ((input.drop (fs * i)).take fs) = none) :
    ((process den (initState fs vadI) input cap).out.drop (fs * i)).take fs =
        (input.drop (fs * i)).take fs ∧
    (applyFrame den ((input.drop (fs * i)).take fs)).2 = 0 ∧
    ∀ j, j < n →
      ((process den (initState fs vadI) input cap).out.drop (fs * j)).take fs =
        (applyFrame den ((input.drop (fs * j)).take fs)).1 := by
  obtain ⟨hout, -, -, -⟩ := process_full den (initState fs vadI) input cap hfs hden
    (by simp [initState, hcap])
  rw [show (initState fs vadI).frameSize = fs from rfl,
    show (initState fs vadI).buf = [] from rfl, List.nil_append] at hout
  have hflen : (framesOf fs input).length = n := by
    rw [framesOf_length fs hfs input.length input (Nat.le_refl _), hlen,
      Nat.mul_div_cancel n hfs]
  have hgetD : ∀ j, j < n →
      (framesOf fs input).getD j [] = (input.drop (fs * j)).take fs := by
    intro j hj
    exact framesOf_getD fs hfs j input (by
      rw [hlen]
      calc fs * (j + 1) ≤ fs * n := Nat.mul_le_mul_left fs (by omega)
        _ = n * fs := Nat.mul_comm fs n)
  have hall : ∀ x ∈ (framesOf fs input).map fun fr => (applyFrame den fr).1,
      x.length = fs := by
    intro x hx
    obtain ⟨fr, hfr, rfl⟩ := List.mem_map.mp hx
    rw [applyFrame_length den hden]
    exact framesOf_mem_length fs hfs input.length input (Nat.le_refl _) fr hfr
  have hblocks : ∀ j, j < n →
      ((process den (initState fs vadI) input cap).out.drop (fs * j)).take fs =
        (applyFrame den ((input.drop (fs * j)).take fs)).1 := by
    intro j hj
    have hjlen : j < ((framesOf fs input).map fun fr => (applyFrame den fr).1).length := by
      rw [List.length_map, hflen]; exact hj
    have hjF : j < (framesOf fs input).length := by rw [hflen]; exact hj
    rw [hout, joinDen,
      flatten_blocks fs ((framesOf fs input).map fun fr => (applyFrame den fr).1) hall j hjlen,
      List.getD_eq_getElem _ _ hjlen, List.getElem_map,
      ← List.getD_eq_getElem (framesOf fs input) [] hjF, hgetD j hj]
  refine ⟨?_, ?_, hblocks⟩
  · rw [hblocks i hi]
    simp [applyFrame, hfail]
  · simp [applyFrame, hfail]

/-- C5 witness: `frameSize = 1`, input `[4, 5, 6]`, collaborator throwing
exactly on the middle frame `[5]`: that frame passes through with VAD `0`
while the neighbouring frames carry their per-frame results. -/
theorem c5_transform_failure_witness :
    failDen ((([4, 5, 6] : List Sample).drop (1 * 1)).take 1) = none ∧
    (((process failDen (initState 1 10) [4, 5, 6] 3).out.drop (1 * 1)).take 1 =
        (([4, 5, 6] : List Sample).drop (1 * 1)).take 1 ∧
      (applyFrame failDen ((([4, 5, 6] : List Sample).drop (1 * 1)).take 1)).2 = 0 ∧
      ∀ j, j < 3 →
        ((process failDen (initState 1 10) [4, 5, 6] 3).out.drop (1 * j)).take 1 =
          (applyFrame failDen ((([4, 5, 6] : List Sample).drop (1 * j)).take 1)).1) :=
  ⟨by decide,
   c5_transform_failure failDen 1 10 (by decide) failDen_lenOk [4, 5, 6] 3 (by decide)
     3 (by decide) 1 (by decide) (by decide)⟩

end WebRTC
